import Mathlib

/-!
Verification of the timed-effects export pipeline of the openscreen-chinese
repository.  The definitions below are shallow embeddings of the TypeScript
source: millisecond timestamps (JS `number`) are modelled as rationals,
stateful callback loops as explicit state-passing functions or step
relations, and fallible code as `Except`.

Source locations:
* `VideoExporter` (segment planner, extractor admission gate, encoder
  initialization, muxer output callback, export finalization) — the
  `videoExporter` module of the repository.
* `computeRegionStrength` / `computeZoomInProgress` / `findDominantRegion` —
  `src/components/video-editor/videoPlayback/zoomRegionUtils.ts`.
-/

/-- A trim region `{id, startMs, endMs}` in source time
(`src/components/video-editor/types.ts`). -/
structure TrimRegion where
  id : String
  startMs : ℚ
  endMs : ℚ
deriving DecidableEq

/-- The `focus` field `{cx, cy}` of a zoom region. -/
structure ZoomFocus where
  cx : ℚ
  cy : ℚ
deriving DecidableEq

/-- A zoom region `{id, startMs, endMs, depth, focus}`
(`src/components/video-editor/types.ts`). -/
structure ZoomRegion where
  id : String
  startMs : ℚ
  endMs : ℚ
  depth : ℚ
  focus : ZoomFocus
deriving DecidableEq

/-- A continuous playback segment, `interface ContinuousSegment` of the
`videoExporter` module. -/
structure ContinuousSegment where
  sourceStartMs : ℚ
  sourceEndMs : ℚ
  effectiveStartMs : ℚ
  effectiveEndMs : ℚ
deriving DecidableEq

/-- Embeds `[...trimRegions].sort((a, b) => a.startMs - b.startMs)` — a stable sort
by `startMs`, embedded as insertion sort (which is stable). -/
def sortTrims (trimRegions : List TrimRegion) : List TrimRegion :=
  trimRegions.insertionSort (fun a b => a.startMs ≤ b.startMs)

/-- The cursor walk inside `VideoExporter.computeContinuousSegments`: for each
trim (already sorted), a `startMs` strictly above the cursor closes a kept
segment; the cursor is then set to `trim.endMs` (unconditionally, as in the
source).  After the last trim a final segment is emitted when the cursor is
strictly below the total duration. -/
def segmentsFrom (totalDurationMs : ℚ) :
    List TrimRegion → ℚ → ℚ → List ContinuousSegment
  | [], currentSourceMs, currentEffectiveMs =>
      if currentSourceMs < totalDurationMs then
        [{ sourceStartMs := currentSourceMs,
           sourceEndMs := totalDurationMs,
           effectiveStartMs := currentEffectiveMs,
           effectiveEndMs := currentEffectiveMs + (totalDurationMs - currentSourceMs) }]
      else []
  | trim :: rest, currentSourceMs, currentEffectiveMs =>
      if trim.startMs > currentSourceMs then
        { sourceStartMs := currentSourceMs,
          sourceEndMs := trim.startMs,
          effectiveStartMs := currentEffectiveMs,
          effectiveEndMs := currentEffectiveMs + (trim.startMs - currentSourceMs) } ::
          segmentsFrom totalDurationMs rest trim.endMs
            (currentEffectiveMs + (trim.startMs - currentSourceMs))
      else
        segmentsFrom totalDurationMs rest trim.endMs currentEffectiveMs

/-- Embeds `VideoExporter.computeContinuousSegments(totalDurationMs)`. -/
def computeContinuousSegments (trimRegions : List TrimRegion)
    (totalDurationMs : ℚ) : List ContinuousSegment :=
  segmentsFrom totalDurationMs (sortTrims trimRegions) 0 0

/-- Embeds `VideoExporter.getEffectiveDuration(totalDuration)` — `totalDuration` is
in seconds, trim bounds in milliseconds, hence the division by 1000. -/
def getEffectiveDuration (trimRegions : List TrimRegion)
    (totalDuration : ℚ) : ℚ :=
  totalDuration -
    trimRegions.foldl (fun sum region => sum + (region.endMs - region.startMs) / 1000) 0

/-- Sum of the effective durations of a segment list. -/
def sumEffectiveDuration (segments : List ContinuousSegment) : ℚ :=
  (segments.map (fun s => s.effectiveEndMs - s.effectiveStartMs)).sum

/-- Sum of the durations of a trim list (milliseconds). -/
def trimSum (trimRegions : List TrimRegion) : ℚ :=
  (trimRegions.map (fun t => t.endMs - t.startMs)).sum

/-- Embeds `computeRegionStrength(region, timeMs)` from `zoomRegionUtils.ts`,
parameterized by the interpolation function `s` (the source's `smoothStep`,
whose defining file `videoPlayback/mathUtils.ts` is not in the corpus) and
the transition window `W` (the source's `TRANSITION_WINDOW_MS`, from the
missing `videoPlayback/constants.ts`). -/
def computeRegionStrength (s : ℚ → ℚ) (W : ℚ) (region : ZoomRegion)
    (timeMs : ℚ) : ℚ :=
  let leadInStart := region.startMs - W
  let leadOutEnd := region.endMs + W
  if timeMs < leadInStart ∨ timeMs > leadOutEnd then 0
  else
    min (s ((timeMs - leadInStart) / W)) (s ((leadOutEnd - timeMs) / W))

/-- Embeds `computeZoomInProgress(region, timeMs)` from `zoomRegionUtils.ts`. -/
def computeZoomInProgress (s : ℚ → ℚ) (W : ℚ) (region : ZoomRegion)
    (timeMs : ℚ) : ℚ :=
  let leadInStart := region.startMs - W
  let leadInEnd := region.startMs
  if timeMs < leadInStart then 0
  else if leadInEnd ≤ timeMs then 1
  else s ((timeMs - leadInStart) / W)

/-- Return shape of `findDominantRegion`. -/
structure DominantRegionResult where
  region : Option ZoomRegion
  strength : ℚ
  zoomInProgress : ℚ
deriving DecidableEq

/-- One iteration of the `for (const region of regions)` loop in
`findDominantRegion`: update the best pair when the strength is strictly
greater than the best so far. -/
def dominantStep (s : ℚ → ℚ) (W : ℚ) (timeMs : ℚ)
    (acc : Option ZoomRegion × ℚ) (region : ZoomRegion) :
    Option ZoomRegion × ℚ :=
  let strength := computeRegionStrength s W region timeMs
  if strength > acc.2 then (some region, strength) else acc

/-- Embeds `findDominantRegion(regions, timeMs)` from `zoomRegionUtils.ts`,
parameterized like `computeRegionStrength`. -/
def findDominantRegion (s : ℚ → ℚ) (W : ℚ) (regions : List ZoomRegion)
    (timeMs : ℚ) : DominantRegionResult :=
  let best := regions.foldl (dominantStep s W timeMs) ((none : Option ZoomRegion), (0 : ℚ))
  { region := best.1,
    strength := best.2,
    zoomInProgress :=
      match best.1 with
      | some r => computeZoomInProgress s W r timeMs
      | none => 0 }

/-- Modelled from the spec: a concrete interpolation function satisfying the
spec's contract for the missing `smoothStep` (monotone on `[0,1]`, `0` at
`t ≤ 0`, `1` at `t ≥ 1`), used to instantiate the parameterized region
resolver on concrete inputs. -/
def clampStep (x : ℚ) : ℚ := max 0 (min 1 x)

/-- Modelled from the spec: another interpolation function satisfying the
spec's contract for the missing `smoothStep`; it stays at `0` on the first
half of the unit interval. -/
def halfStep (x : ℚ) : ℚ := max 0 (min 1 (2 * x - 1))

/-- Embeds `private readonly MAX_ENCODE_QUEUE = 200`. -/
def MAX_ENCODE_QUEUE : ℕ := 200

/-- State of the counter-backed admission gate in front of the encoder:
the `encodeQueue` counter and the number of frames dropped (closed without
being encoded) under backpressure. -/
structure EncodeGateState where
  encodeQueue : ℕ
  droppedFrames : ℕ
deriving DecidableEq

/-- The observable transitions of the admission gate in
`extractFramesWithPlayback` and the encoder `output` callback:
`accept` encodes a frame after observing `encodeQueue < MAX_ENCODE_QUEUE`
(the exit condition of the bounded wait loop) and increments the counter;
`drop` closes the frame without encoding it (wait budget exhausted);
`output` is the encoder output callback decrementing the counter. -/
inductive EncodeGateStep : EncodeGateState → EncodeGateState → Prop
  | accept (s : EncodeGateState) (h : s.encodeQueue < MAX_ENCODE_QUEUE) :
      EncodeGateStep s ⟨s.encodeQueue + 1, s.droppedFrames⟩
  | drop (s : EncodeGateState) :
      EncodeGateStep s ⟨s.encodeQueue, s.droppedFrames + 1⟩
  | output (s : EncodeGateState) :
      EncodeGateStep s ⟨s.encodeQueue - 1, s.droppedFrames⟩

/-- Submitting one frame against a stalled encoder: no output callback can
run during the bounded wait (`waitCount < 50` one-millisecond waits), so the
queue is unchanged by the polling and the frame is accepted exactly when the
counter is below the ceiling, otherwise dropped and closed. -/
def submitFrameStalled (s : EncodeGateState) : EncodeGateState :=
  if s.encodeQueue < MAX_ENCODE_QUEUE then ⟨s.encodeQueue + 1, s.droppedFrames⟩
  else ⟨s.encodeQueue, s.droppedFrames + 1⟩

/-- Submitting `n` frames back-to-back against a stalled encoder. -/
def submitFramesStalled : ℕ → EncodeGateState → EncodeGateState
  | 0, s => s
  | n + 1, s => submitFramesStalled n (submitFrameStalled s)

/-- Embeds `frameIntervalMs = 1000 / this.config.frameRate` in `export()`. -/
def frameIntervalMs (frameRate : ℚ) : ℚ := 1000 / frameRate

/-- Per-segment extractor state shared between decoded-frame events in
`extractFramesWithPlayback`. -/
structure ExtractState where
  lastCapturedTimeMs : ℚ
  framesProcessed : ℕ
  isFinished : Bool
deriving DecidableEq

/-- One decoded-frame event of `extractFramesWithPlayback` (the body of
`processFrame`), restricted to its capture decision: finish when the segment
end is reached (50 ms tolerance) or the frame budget is exhausted; otherwise
capture exactly when `timeSinceLastCapture >= frameIntervalMs * 0.7`.
Returns the new state and the number of frames captured by this event. -/
def processFrameEvent (segmentEndTimeMs frameIntervalMs : ℚ)
    (segmentFrames : ℕ) (st : ExtractState) (currentTimeMs : ℚ) :
    ExtractState × ℕ :=
  if st.isFinished then (st, 0)
  else if segmentEndTimeMs - 50 ≤ currentTimeMs ∨ segmentFrames ≤ st.framesProcessed then
    ({ st with isFinished := true }, 0)
  else if frameIntervalMs * (7 / 10) ≤ currentTimeMs - st.lastCapturedTimeMs then
    ({ st with lastCapturedTimeMs := currentTimeMs,
               framesProcessed := st.framesProcessed + 1 }, 1)
  else (st, 0)

/-- The discriminated result shape of `export()`:
`{success, error?, cancelled?}`.  The optional `cancelled` flag is `none`
when the field is absent from the constructed object. -/
structure ExportResult where
  success : Bool
  error : Option String
  cancelled : Option Bool
deriving DecidableEq

/-- The finalization effects that `export()` may perform after the segment
loop. -/
inductive FinalizeAction
  | flushEncoder
  | awaitMuxingPromises
  | finalizeContainer
deriving DecidableEq

/-- The tail of `export()` after the segment loop: on `cancelled` it returns
`{success: false, error: 'Export cancelled'}` immediately; otherwise it
flushes the encoder (when still configured), awaits the muxing promises and
finalizes the container, returning a success result. -/
def exportFinalize (cancelled : Bool) (encoderConfigured : Bool) :
    ExportResult × List FinalizeAction :=
  if cancelled then
    ({ success := false, error := some "Export cancelled", cancelled := none }, [])
  else
    ({ success := true, error := none, cancelled := none },
      (if encoderConfigured then [FinalizeAction.flushEncoder] else []) ++
        [FinalizeAction.awaitMuxingPromises, FinalizeAction.finalizeContainer])

/-- The `VideoEncoderConfig` assembled in `initializeEncoder`. -/
structure VideoEncoderConfig where
  codec : String
  width : ℚ
  height : ℚ
  bitrate : ℚ
  framerate : ℚ
  latencyMode : String
  bitrateMode : String
  hardwareAcceleration : String
deriving DecidableEq

/-- The configuration-probing tail of `initializeEncoder`, with the platform
capability `VideoEncoder.isConfigSupported` passed in as a predicate: probe
the `prefer-hardware` configuration; when unsupported retry the identical
configuration with `prefer-software`; throw `'Video encoding not supported'`
when neither is supported. -/
def initializeEncoderConfigure (base : VideoEncoderConfig)
    (isConfigSupported : VideoEncoderConfig → Bool) :
    Except String VideoEncoderConfig :=
  let hwConfig := { base with hardwareAcceleration := "prefer-hardware" }
  if isConfigSupported hwConfig then Except.ok hwConfig
  else
    let swConfig := { hwConfig with hardwareAcceleration := "prefer-software" }
    if isConfigSupported swConfig then Except.ok swConfig
    else Except.error "Video encoding not supported"

/-- The metadata attached by the encoder to one `EncodedVideoChunk`:
an optional codec description (opaque bytes, modelled by a numeric id) and
an optional color space (likewise). -/
structure EncodedChunkMeta where
  description : Option ℕ
  colorSpace : Option ℕ
deriving DecidableEq

/-- The fallback color-space literal of the encoder output callback in
`initializeEncoder` (`{primaries: 'bt709', transfer: 'iec61966-2-1',
matrix: 'rgb', fullRange: true}`, used when no color space has been
captured), represented by a distinguished opaque id like the other
color-space values. -/
def defaultColorSpace : ℕ := 0

/-- The metadata actually handed to `muxer.addVideoChunk`: either the
track configuration constructed from the captured description and color
space (first chunk) or the encoder-provided metadata passed through
unchanged. -/
inductive WrittenMeta
  | constructed (description : ℕ) (colorSpace : ℕ)
  | passthrough (m : EncodedChunkMeta)
deriving DecidableEq

/-- The exporter state read and written by the encoder `output` callback:
the captured description/color space, the chunk counter, and the sequence of
metadata handed to the muxer, in submission order. -/
structure EncoderOutputState where
  videoDescription : Option ℕ
  videoColorSpace : Option ℕ
  chunkCount : ℕ
  written : List WrittenMeta
deriving DecidableEq

/-- One invocation of the encoder `output` callback in `initializeEncoder`:
capture the description and color space from the chunk metadata when not yet
captured; for the first chunk (`chunkCount === 0`) with a captured
description, write the constructed track configuration; otherwise pass the
encoder metadata through unchanged. -/
def encoderOutputStep (st : EncoderOutputState) (m : EncodedChunkMeta) :
    EncoderOutputState :=
  let vd := match m.description, st.videoDescription with
    | some d, none => some d
    | _, _ => st.videoDescription
  let vc := match m.colorSpace, st.videoColorSpace with
    | some c, none => some c
    | _, _ => st.videoColorSpace
  let w := if st.chunkCount = 0 then
      match vd with
      | some d => WrittenMeta.constructed d (vc.getD defaultColorSpace)
      | none => WrittenMeta.passthrough m
    else WrittenMeta.passthrough m
  { videoDescription := vd,
    videoColorSpace := vc,
    chunkCount := st.chunkCount + 1,
    written := st.written ++ [w] }

/-- Processing a whole stream of encoder outputs from the freshly
initialized state (`initializeEncoder` resets the captured configuration and
the chunk counter). -/
def processChunks (metas : List EncodedChunkMeta) : EncoderOutputState :=
  metas.foldl encoderOutputStep ⟨none, none, 0, []⟩

/-! ### Segment planner lemmas -/

/-- Two trim regions are disjoint as intervals. -/
def TrimDisjoint (a b : TrimRegion) : Prop :=
  a.endMs ≤ b.startMs ∨ b.endMs ≤ a.startMs

/-- Neither of two trim regions is nested strictly inside the other:
whichever starts first also ends first (or at the same time). -/
def NonNested (a b : TrimRegion) : Prop :=
  (a.startMs ≤ b.startMs → a.endMs ≤ b.endMs) ∧
  (b.startMs ≤ a.startMs → b.endMs ≤ a.endMs)

instance : IsTotal TrimRegion fun a b => a.startMs ≤ b.startMs :=
  ⟨fun a b => le_total a.startMs b.startMs⟩

instance : IsTrans TrimRegion fun a b => a.startMs ≤ b.startMs :=
  ⟨fun _ _ _ hab hbc => le_trans hab hbc⟩

lemma mem_sortTrims {t : TrimRegion} {l : List TrimRegion} :
    t ∈ sortTrims l ↔ t ∈ l :=
  (List.perm_insertionSort _ l).mem_iff

lemma sortTrims_sorted (l : List TrimRegion) :
    List.Pairwise (fun a b : TrimRegion => a.startMs ≤ b.startMs) (sortTrims l) :=
  List.sorted_insertionSort _ l

lemma segmentsFrom_head_effectiveStart (D : ℚ) :
    ∀ (l : List TrimRegion) (cur eff : ℚ) (s : ContinuousSegment),
      (segmentsFrom D l cur eff).head? = some s → s.effectiveStartMs = eff := by
  intro l
  induction l with
  | nil =>
    intro cur eff s hs
    simp only [segmentsFrom] at hs
    by_cases h : cur < D
    · rw [if_pos h, List.head?_cons, Option.some.injEq] at hs
      rw [← hs]
    · rw [if_neg h] at hs
      exact absurd hs (by simp)
  | cons t rest ih =>
    intro cur eff s hs
    simp only [segmentsFrom] at hs
    by_cases h : t.startMs > cur
    · rw [if_pos h, List.head?_cons, Option.some.injEq] at hs
      rw [← hs]
    · rw [if_neg h] at hs
      exact ih _ _ _ hs

lemma segmentsFrom_mem_basic (D : ℚ) :
    ∀ (l : List TrimRegion) (cur eff : ℚ) (s : ContinuousSegment),
      s ∈ segmentsFrom D l cur eff →
      s.sourceStartMs < s.sourceEndMs ∧
      s.effectiveEndMs - s.effectiveStartMs = s.sourceEndMs - s.sourceStartMs := by
  intro l
  induction l with
  | nil =>
    intro cur eff s hs
    simp only [segmentsFrom] at hs
    by_cases h : cur < D
    · rw [if_pos h, List.mem_singleton] at hs
      subst hs
      exact ⟨h, by ring⟩
    · rw [if_neg h] at hs
      exact absurd hs (by simp)
  | cons t rest ih =>
    intro cur eff s hs
    simp only [segmentsFrom] at hs
    by_cases h : t.startMs > cur
    · rw [if_pos h, List.mem_cons] at hs
      rcases hs with hs | hs
      · subst hs
        exact ⟨h, by ring⟩
      · exact ih _ _ _ hs
    · rw [if_neg h] at hs
      exact ih _ _ _ hs

lemma segmentsFrom_effective_chain (D : ℚ) :
    ∀ (l : List TrimRegion) (cur eff : ℚ),
      List.Chain' (fun a b => a.effectiveEndMs = b.effectiveStartMs)
        (segmentsFrom D l cur eff) := by
  intro l
  induction l with
  | nil =>
    intro cur eff
    simp only [segmentsFrom]
    by_cases h : cur < D
    · rw [if_pos h]
      exact List.chain'_singleton _
    · rw [if_neg h]
      exact List.chain'_nil
  | cons t rest ih =>
    intro cur eff
    simp only [segmentsFrom]
    by_cases h : t.startMs > cur
    · rw [if_pos h]
      refine List.chain'_cons'.mpr ⟨?_, ih _ _⟩
      intro b hb
      exact (segmentsFrom_head_effectiveStart D rest t.endMs _ b hb).symm
    · rw [if_neg h]
      exact ih _ _

lemma segmentsFrom_sourceStart_ge (D : ℚ) :
    ∀ (l : List TrimRegion) (cur eff : ℚ),
      (∀ t ∈ l, cur ≤ t.endMs) →
      List.Pairwise (fun a b : TrimRegion => a.endMs ≤ b.endMs) l →
      ∀ s ∈ segmentsFrom D l cur eff, cur ≤ s.sourceStartMs := by
  intro l
  induction l with
  | nil =>
    intro cur eff _ _ s hs
    simp only [segmentsFrom] at hs
    by_cases h : cur < D
    · rw [if_pos h, List.mem_singleton] at hs
      subst hs
      exact le_refl _
    · rw [if_neg h] at hs
      exact absurd hs (by simp)
  | cons t rest ih =>
    intro cur eff hends hmono s hs
    have hcur_t : cur ≤ t.endMs := hends t (List.mem_cons_self t rest)
    have hrest : ∀ r ∈ rest, t.endMs ≤ r.endMs :=
      fun r hr => (List.pairwise_cons.mp hmono).1 r hr
    simp only [segmentsFrom] at hs
    by_cases h : t.startMs > cur
    · rw [if_pos h, List.mem_cons] at hs
      rcases hs with hs | hs
      · subst hs
        exact le_refl _
      · exact le_trans hcur_t
          (ih t.endMs _ hrest (List.pairwise_cons.mp hmono).2 s hs)
    · rw [if_neg h] at hs
      exact le_trans hcur_t
        (ih t.endMs _ hrest (List.pairwise_cons.mp hmono).2 s hs)

lemma segmentsFrom_source_chain (D : ℚ) :
    ∀ (l : List TrimRegion) (cur eff : ℚ),
      (∀ t ∈ l, t.startMs < t.endMs) →
      (∀ t ∈ l, cur ≤ t.endMs) →
      List.Pairwise (fun a b : TrimRegion => a.endMs ≤ b.endMs) l →
      List.Chain' (fun a b => a.sourceEndMs ≤ b.sourceStartMs)
        (segmentsFrom D l cur eff) := by
  intro l
  induction l with
  | nil =>
    intro cur eff _ _ _
    simp only [segmentsFrom]
    by_cases h : cur < D
    · rw [if_pos h]
      exact List.chain'_singleton _
    · rw [if_neg h]
      exact List.chain'_nil
  | cons t rest ih =>
    intro cur eff hwf hends hmono
    have hrest : ∀ r ∈ rest, t.endMs ≤ r.endMs :=
      fun r hr => (List.pairwise_cons.mp hmono).1 r hr
    have hmono' := (List.pairwise_cons.mp hmono).2
    have hwf' : ∀ r ∈ rest, r.startMs < r.endMs :=
      fun r hr => hwf r (List.mem_cons_of_mem t hr)
    simp only [segmentsFrom]
    by_cases h : t.startMs > cur
    · rw [if_pos h]
      refine List.chain'_cons'.mpr ⟨?_, ih t.endMs _ hwf' hrest hmono'⟩
      intro b hb
      have hb' : b ∈ segmentsFrom D rest t.endMs _ := List.mem_of_mem_head? hb
      have := segmentsFrom_sourceStart_ge D rest t.endMs _ hrest hmono' b hb'
      exact le_trans (le_of_lt (hwf t (List.mem_cons_self t rest))) this
    · rw [if_neg h]
      exact ih t.endMs _ hwf' hrest hmono'

lemma segmentsFrom_avoids_trims (D : ℚ) :
    ∀ (l : List TrimRegion) (cur eff : ℚ),
      List.Pairwise (fun a b : TrimRegion => a.startMs ≤ b.startMs) l →
      (∀ t ∈ l, cur ≤ t.endMs) →
      List.Pairwise (fun a b : TrimRegion => a.endMs ≤ b.endMs) l →
      ∀ s ∈ segmentsFrom D l cur eff, ∀ t ∈ l,
        t.endMs ≤ s.sourceStartMs ∨ s.sourceEndMs ≤ t.startMs := by
  intro l
  induction l with
  | nil =>
    intro cur eff _ _ _ s _ t ht
    exact absurd ht (by simp)
  | cons u rest ih =>
    intro cur eff hsorted hends hmono s hs t ht
    have hrest_end : ∀ r ∈ rest, u.endMs ≤ r.endMs :=
      fun r hr => (List.pairwise_cons.mp hmono).1 r hr
    have hmono' := (List.pairwise_cons.mp hmono).2
    have hsorted' := (List.pairwise_cons.mp hsorted).2
    have hrest_start : ∀ r ∈ rest, u.startMs ≤ r.startMs :=
      fun r hr => (List.pairwise_cons.mp hsorted).1 r hr
    simp only [segmentsFrom] at hs
    by_cases h : u.startMs > cur
    · rw [if_pos h, List.mem_cons] at hs
      rcases hs with hs | hs
      · subst hs
        rcases List.mem_cons.mp ht with ht | ht
        · subst ht
          exact Or.inr (le_refl _)
        · exact Or.inr (hrest_start t ht)
      · rcases List.mem_cons.mp ht with ht | ht
        · subst ht
          exact Or.inl
            (segmentsFrom_sourceStart_ge D rest t.endMs _ hrest_end hmono' s hs)
        · exact ih u.endMs _ hsorted' hrest_end hmono' s hs t ht
    · rw [if_neg h] at hs
      rcases List.mem_cons.mp ht with ht | ht
      · subst ht
        exact Or.inl
          (segmentsFrom_sourceStart_ge D rest t.endMs _ hrest_end hmono' s hs)
      · exact ih u.endMs _ hsorted' hrest_end hmono' s hs t ht

lemma segmentsFrom_sum (D : ℚ) :
    ∀ (l : List TrimRegion) (cur eff : ℚ),
      List.Pairwise (fun a b : TrimRegion => a.endMs ≤ b.startMs) l →
      (∀ t ∈ l, cur ≤ t.startMs) →
      (∀ t ∈ l, t.endMs ≤ D) →
      cur ≤ D →
      sumEffectiveDuration (segmentsFrom D l cur eff) = (D - cur) - trimSum l := by
  intro l
  induction l with
  | nil =>
    intro cur eff _ _ _ hcurD
    simp only [segmentsFrom, trimSum, List.map_nil, List.sum_nil]
    by_cases h : cur < D
    · rw [if_pos h]
      simp [sumEffectiveDuration]
    · rw [if_neg h]
      have : cur = D := le_antisymm hcurD (not_lt.mp h)
      subst this
      simp [sumEffectiveDuration]
  | cons t rest ih =>
    intro cur eff hchain hcur hD hcurD
    have hcur_t : cur ≤ t.startMs := hcur t (List.mem_cons_self t rest)
    have hrest : ∀ r ∈ rest, t.endMs ≤ r.startMs :=
      fun r hr => (List.pairwise_cons.mp hchain).1 r hr
    have hchain' := (List.pairwise_cons.mp hchain).2
    have hD_t : t.endMs ≤ D := hD t (List.mem_cons_self t rest)
    have hD' : ∀ r ∈ rest, r.endMs ≤ D :=
      fun r hr => hD r (List.mem_cons_of_mem t hr)
    simp only [segmentsFrom]
    by_cases h : t.startMs > cur
    · rw [if_pos h]
      have hrec := ih t.endMs (eff + (t.startMs - cur)) hchain' hrest hD' hD_t
      simp only [sumEffectiveDuration, List.map_cons, List.sum_cons] at hrec ⊢
      rw [hrec]
      simp only [trimSum, List.map_cons, List.sum_cons]
      ring
    · rw [if_neg h]
      have hcur_eq : cur = t.startMs := le_antisymm hcur_t (not_lt.mp h)
      have hrec := ih t.endMs eff hchain' hrest hD' hD_t
      rw [hrec]
      simp only [trimSum, List.map_cons, List.sum_cons]
      rw [hcur_eq]
      ring

lemma getEffectiveDuration_foldl :
    ∀ (l : List TrimRegion) (a : ℚ),
      l.foldl (fun sum region => sum + (region.endMs - region.startMs) / 1000) a =
        a + trimSum l / 1000 := by
  intro l
  induction l with
  | nil => intro a; simp [trimSum]
  | cons t rest ih =>
    intro a
    simp only [List.foldl_cons, trimSum, List.map_cons, List.sum_cons] at *
    rw [ih]
    ring

/-! ### Claims C1 and C3 — segment planner -/

/-- C1 (amended): for a positive total duration and trim regions with
`0 ≤ startMs < endMs`, none nested strictly inside another (in particular
for disjoint or merely partially overlapping trims), `computeContinuousSegments`
emits non-empty segments in increasing source-time order, with effective
times contiguous from 0 and effective duration equal to source duration per
segment, the walking cursor (`0` followed by the end of each sorted trim)
never moves backward, and no emitted segment intersects any trim interval. -/
theorem computeContinuousSegments_sound (D : ℚ) (trims : List TrimRegion)
    (hD : 0 < D)
    (hwf : ∀ t ∈ trims, 0 ≤ t.startMs ∧ t.startMs < t.endMs)
    (hnn : List.Pairwise NonNested trims) :
    (∀ s ∈ computeContinuousSegments trims D,
      s.sourceStartMs < s.sourceEndMs ∧
      s.effectiveEndMs - s.effectiveStartMs = s.sourceEndMs - s.sourceStartMs) ∧
    List.Chain' (fun a b => a.sourceEndMs ≤ b.sourceStartMs)
      (computeContinuousSegments trims D) ∧
    List.Chain' (fun a b => a.effectiveEndMs = b.effectiveStartMs)
      (computeContinuousSegments trims D) ∧
    (∀ s, (computeContinuousSegments trims D).head? = some s →
      s.effectiveStartMs = 0) ∧
    List.Chain' (fun a b => a ≤ b)
      ((0 : ℚ) :: (sortTrims trims).map TrimRegion.endMs) ∧
    (∀ s ∈ computeContinuousSegments trims D, ∀ t ∈ trims,
      t.endMs ≤ s.sourceStartMs ∨ s.sourceEndMs ≤ t.startMs) := by
  have hsymm : ∀ {x y : TrimRegion}, NonNested x y → NonNested y x :=
    fun h => ⟨h.2, h.1⟩
  have hnn' : List.Pairwise NonNested (sortTrims trims) :=
    ((List.perm_insertionSort _ trims).pairwise_iff hsymm).mpr hnn
  have hsorted := sortTrims_sorted trims
  have hendsMono : List.Pairwise (fun a b : TrimRegion => a.endMs ≤ b.endMs)
      (sortTrims trims) :=
    (hsorted.and hnn').imp (fun h => h.2.1 h.1)
  have hwf' : ∀ t ∈ sortTrims trims, 0 ≤ t.startMs ∧ t.startMs < t.endMs :=
    fun t ht => hwf t (mem_sortTrims.mp ht)
  have hends0 : ∀ t ∈ sortTrims trims, (0 : ℚ) ≤ t.endMs :=
    fun t ht => le_of_lt (lt_of_le_of_lt (hwf' t ht).1 (hwf' t ht).2)
  refine ⟨?_, ?_, ?_, ?_, ?_, ?_⟩
  · exact fun s hs => segmentsFrom_mem_basic D (sortTrims trims) 0 0 s hs
  · exact segmentsFrom_source_chain D (sortTrims trims) 0 0
      (fun t ht => (hwf' t ht).2) hends0 hendsMono
  · exact segmentsFrom_effective_chain D (sortTrims trims) 0 0
  · exact fun s hs => segmentsFrom_head_effectiveStart D (sortTrims trims) 0 0 s hs
  · refine List.chain'_cons'.mpr ⟨?_, (List.pairwise_map.mpr hendsMono).chain'⟩
    intro b hb
    obtain ⟨t, ht, rfl⟩ := List.mem_map.mp (List.mem_of_mem_head? hb)
    exact hends0 t ht
  · intro s hs t ht
    exact segmentsFrom_avoids_trims D (sortTrims trims) 0 0 hsorted hends0
      hendsMono s hs t (mem_sortTrims.mpr ht)

/-- C1 counterexample: with the nested overlapping trims `{0–100}` and
`{50–60}` and total duration 200 ms, the cursor moves backward (100 to 60)
and the single emitted segment `[60, 200)` intersects the trim `[0, 100)`,
refuting the claim for general overlapping trims. -/
theorem computeContinuousSegments_nested_counterexample :
    computeContinuousSegments [⟨"t1", 0, 100⟩, ⟨"t2", 50, 60⟩] 200 =
      [⟨60, 200, 0, 140⟩] ∧
    ¬ (∀ s ∈ computeContinuousSegments [⟨"t1", 0, 100⟩, ⟨"t2", 50, 60⟩] 200,
        ∀ t ∈ [TrimRegion.mk "t1" 0 100, TrimRegion.mk "t2" 50 60],
          t.endMs ≤ s.sourceStartMs ∨ s.sourceEndMs ≤ t.startMs) ∧
    ¬ List.Chain' (fun a b => a ≤ b)
        ((0 : ℚ) ::
          (sortTrims [TrimRegion.mk "t1" 0 100, TrimRegion.mk "t2" 50 60]).map
            TrimRegion.endMs) := by
  have h1 : computeContinuousSegments [⟨"t1", 0, 100⟩, ⟨"t2", 50, 60⟩] 200 =
      [⟨60, 200, 0, 140⟩] := by
    norm_num [computeContinuousSegments, sortTrims, segmentsFrom,
      List.insertionSort, List.orderedInsert]
  refine ⟨h1, ?_, ?_⟩
  · intro hall
    have hs : (⟨60, 200, 0, 140⟩ : ContinuousSegment) ∈
        computeContinuousSegments [⟨"t1", 0, 100⟩, ⟨"t2", 50, 60⟩] 200 := by
      rw [h1]
      exact List.mem_singleton_self _
    have h2 := hall _ hs ⟨"t1", 0, 100⟩ (List.mem_cons_self _ _)
    rcases h2 with h2 | h2 <;> norm_num at h2
  · intro hch
    have h2 : (sortTrims [TrimRegion.mk "t1" 0 100, TrimRegion.mk "t2" 50 60]).map
        TrimRegion.endMs = [100, 60] := by
      norm_num [sortTrims, List.insertionSort, List.orderedInsert]
    rw [h2] at hch
    have h3 := (List.chain'_cons.mp (List.chain'_cons.mp hch).2).1
    norm_num at h3

/-- C1 witness: the amended theorem applied to duration 10000 ms and the
disjoint trims `{2000–4000}` and `{6000–7000}`. -/
theorem computeContinuousSegments_sound_witness :
    List.Chain' (fun a b => a.sourceEndMs ≤ b.sourceStartMs)
      (computeContinuousSegments
        [⟨"a", 2000, 4000⟩, ⟨"b", 6000, 7000⟩] 10000) ∧
    List.Chain' (fun a b => a ≤ b)
      ((0 : ℚ) ::
        (sortTrims [TrimRegion.mk "a" 2000 4000, TrimRegion.mk "b" 6000 7000]).map
          TrimRegion.endMs) :=
  ⟨(computeContinuousSegments_sound 10000 [⟨"a", 2000, 4000⟩, ⟨"b", 6000, 7000⟩]
      (by norm_num)
      (by intro t ht; rcases List.mem_cons.mp ht with rfl | ht₂; · norm_num
          rcases List.mem_cons.mp ht₂ with rfl | ht₃; · norm_num
          exact absurd ht₃ (by simp))
      (by refine List.Pairwise.cons ?_ (List.pairwise_singleton _ _)
          intro t ht
          rcases List.mem_singleton.mp ht with rfl
          exact ⟨fun _ => by norm_num, fun h => absurd h (by norm_num)⟩)).2.1,
   (computeContinuousSegments_sound 10000 [⟨"a", 2000, 4000⟩, ⟨"b", 6000, 7000⟩]
      (by norm_num)
      (by intro t ht; rcases List.mem_cons.mp ht with rfl | ht₂; · norm_num
          rcases List.mem_cons.mp ht₂ with rfl | ht₃; · norm_num
          exact absurd ht₃ (by simp))
      (by refine List.Pairwise.cons ?_ (List.pairwise_singleton _ _)
          intro t ht
          rcases List.mem_singleton.mp ht with rfl
          exact ⟨fun _ => by norm_num, fun h => absurd h (by norm_num)⟩)).2.2.2.2.1⟩

/-- C3: for pairwise disjoint, well-formed trim regions inside `[0, D]`, the
sum of the effective durations of the emitted segments equals the total
duration minus the sum of the trim durations, agrees with
`getEffectiveDuration` (which works in seconds, hence the factor 1000), and
the concrete scenario (duration 10000 ms, one trim `{2000–4000}`) yields
exactly the two segments `{0–2000 → 0–2000}` and `{4000–10000 → 2000–8000}`. -/
theorem computeContinuousSegments_effective_sum (D : ℚ) (trims : List TrimRegion)
    (hD : 0 ≤ D)
    (hwf : ∀ t ∈ trims, 0 ≤ t.startMs ∧ t.startMs < t.endMs ∧ t.endMs ≤ D)
    (hdisj : List.Pairwise TrimDisjoint trims) :
    sumEffectiveDuration (computeContinuousSegments trims D) = D - trimSum trims ∧
    sumEffectiveDuration (computeContinuousSegments trims D) =
      1000 * getEffectiveDuration trims (D / 1000) ∧
    computeContinuousSegments [⟨"t1", 2000, 4000⟩] 10000 =
      [⟨0, 2000, 0, 2000⟩, ⟨4000, 10000, 2000, 8000⟩] := by
  have hsymm : ∀ {x y : TrimRegion}, TrimDisjoint x y → TrimDisjoint y x :=
    fun h => h.symm
  have hdisj' : List.Pairwise TrimDisjoint (sortTrims trims) :=
    ((List.perm_insertionSort _ trims).pairwise_iff hsymm).mpr hdisj
  have hsorted := sortTrims_sorted trims
  have hwf' : ∀ t ∈ sortTrims trims,
      0 ≤ t.startMs ∧ t.startMs < t.endMs ∧ t.endMs ≤ D :=
    fun t ht => hwf t (mem_sortTrims.mp ht)
  have hchain : List.Pairwise (fun a b : TrimRegion => a.endMs ≤ b.startMs)
      (sortTrims trims) := by
    refine (hsorted.and hdisj').imp_of_mem ?_
    intro a b ha hb hab
    rcases hab.2 with h | h
    · exact h
    · exact absurd (lt_of_lt_of_le (hwf' b hb).2.1 (le_trans h hab.1))
        (lt_irrefl _)
  have hcur : ∀ t ∈ sortTrims trims, (0 : ℚ) ≤ t.startMs :=
    fun t ht => (hwf' t ht).1
  have hDe : ∀ t ∈ sortTrims trims, t.endMs ≤ D :=
    fun t ht => (hwf' t ht).2.2
  have hsum := segmentsFrom_sum D (sortTrims trims) 0 0 hchain hcur hDe hD
  have hperm : trimSum (sortTrims trims) = trimSum trims :=
    List.Perm.sum_eq ((List.perm_insertionSort _ trims).map _)
  have hmain : sumEffectiveDuration (computeContinuousSegments trims D) =
      D - trimSum trims := by
    rw [computeContinuousSegments, hsum, hperm]
    ring
  refine ⟨hmain, ?_, ?_⟩
  · rw [hmain, getEffectiveDuration, getEffectiveDuration_foldl]
    field_simp
  · norm_num [computeContinuousSegments, sortTrims, segmentsFrom,
      List.insertionSort, List.orderedInsert]

/-- C3 witness: the theorem applied to duration 10000 ms and the single trim
`{2000–4000}`. -/
theorem computeContinuousSegments_effective_sum_witness :
    sumEffectiveDuration
        (computeContinuousSegments [⟨"t1", 2000, 4000⟩] 10000) =
      10000 - trimSum [⟨"t1", 2000, 4000⟩] ∧
    sumEffectiveDuration
        (computeContinuousSegments [⟨"t1", 2000, 4000⟩] 10000) =
      1000 * getEffectiveDuration [⟨"t1", 2000, 4000⟩] (10000 / 1000) ∧
    computeContinuousSegments [⟨"t1", 2000, 4000⟩] 10000 =
      [⟨0, 2000, 0, 2000⟩, ⟨4000, 10000, 2000, 8000⟩] :=
  computeContinuousSegments_effective_sum 10000 [⟨"t1", 2000, 4000⟩]
    (by norm_num)
    (by intro t ht
        rcases List.mem_singleton.mp ht with rfl
        norm_num)
    (List.pairwise_singleton _ _)

/-! ### Claims C2, C4, C10 — region resolver -/

lemma computeRegionStrength_leadIn (s : ℚ → ℚ) (W : ℚ) (r : ZoomRegion) (t : ℚ)
    (hW : 0 < W) (hr : r.startMs < r.endMs)
    (h1 : ∀ x, 1 ≤ x → s x = 1)
    (hmono : ∀ x y, 0 ≤ x → x ≤ y → y ≤ 1 → s x ≤ s y)
    (ht1 : r.startMs - W ≤ t) (ht2 : t ≤ r.startMs) :
    computeRegionStrength s W r t = s ((t - (r.startMs - W)) / W) := by
  have hcond : ¬ (t < r.startMs - W ∨ t > r.endMs + W) := by
    push_neg
    exact ⟨ht1, by linarith⟩
  simp only [computeRegionStrength]
  rw [if_neg hcond]
  have hb : (1 : ℚ) ≤ (r.endMs + W - t) / W := by
    rw [one_le_div hW]
    linarith
  rw [h1 _ hb]
  have ha0 : (0 : ℚ) ≤ (t - (r.startMs - W)) / W :=
    div_nonneg (by linarith) (le_of_lt hW)
  have ha1 : (t - (r.startMs - W)) / W ≤ 1 := by
    rw [div_le_one hW]
    linarith
  have hs1 : s ((t - (r.startMs - W)) / W) ≤ 1 := by
    have h := hmono _ 1 ha0 ha1 le_rfl
    rwa [h1 1 le_rfl] at h
  exact min_eq_left hs1

lemma computeRegionStrength_leadOut (s : ℚ → ℚ) (W : ℚ) (r : ZoomRegion) (t : ℚ)
    (hW : 0 < W) (hr : r.startMs < r.endMs)
    (h1 : ∀ x, 1 ≤ x → s x = 1)
    (hmono : ∀ x y, 0 ≤ x → x ≤ y → y ≤ 1 → s x ≤ s y)
    (ht1 : r.endMs ≤ t) (ht2 : t ≤ r.endMs + W) :
    computeRegionStrength s W r t = s ((r.endMs + W - t) / W) := by
  have hcond : ¬ (t < r.startMs - W ∨ t > r.endMs + W) := by
    push_neg
    exact ⟨by linarith, ht2⟩
  simp only [computeRegionStrength]
  rw [if_neg hcond]
  have ha : (1 : ℚ) ≤ (t - (r.startMs - W)) / W := by
    rw [one_le_div hW]
    linarith
  rw [h1 _ ha]
  have hb0 : (0 : ℚ) ≤ (r.endMs + W - t) / W :=
    div_nonneg (by linarith) (le_of_lt hW)
  have hb1 : (r.endMs + W - t) / W ≤ 1 := by
    rw [div_le_one hW]
    linarith
  have hs1 : s ((r.endMs + W - t) / W) ≤ 1 := by
    have h := hmono _ 1 hb0 hb1 le_rfl
    rwa [h1 1 le_rfl] at h
  exact min_eq_right hs1

/-- C2: for any interpolation function `s` that is monotone on `[0,1]`,
`0` at arguments `≤ 0` and `1` at arguments `≥ 1` (the spec's contract for
the missing `smoothStep`), and any positive transition window, the resolved
strength is `1` on the whole core interval, `0` at
`startMs − transitionWindow`, at `endMs + transitionWindow` and outside
those bounds, monotone non-decreasing on the lead-in ramp and monotone
non-increasing on the lead-out ramp. -/
theorem computeRegionStrength_profile (s : ℚ → ℚ) (W : ℚ) (r : ZoomRegion)
    (hW : 0 < W) (hr : r.startMs < r.endMs)
    (h0 : ∀ x, x ≤ 0 → s x = 0) (h1 : ∀ x, 1 ≤ x → s x = 1)
    (hmono : ∀ x y, 0 ≤ x → x ≤ y → y ≤ 1 → s x ≤ s y) :
    (∀ t, r.startMs ≤ t → t ≤ r.endMs → computeRegionStrength s W r t = 1) ∧
    computeRegionStrength s W r (r.startMs - W) = 0 ∧
    computeRegionStrength s W r (r.endMs + W) = 0 ∧
    (∀ t, t < r.startMs - W ∨ r.endMs + W < t →
      computeRegionStrength s W r t = 0) ∧
    (∀ t₁ t₂, r.startMs - W ≤ t₁ → t₁ ≤ t₂ → t₂ ≤ r.startMs →
      computeRegionStrength s W r t₁ ≤ computeRegionStrength s W r t₂) ∧
    (∀ t₁ t₂, r.endMs ≤ t₁ → t₁ ≤ t₂ → t₂ ≤ r.endMs + W →
      computeRegionStrength s W r t₂ ≤ computeRegionStrength s W r t₁) := by
  refine ⟨?_, ?_, ?_, ?_, ?_, ?_⟩
  · intro t ha hb
    have hcond : ¬ (t < r.startMs - W ∨ t > r.endMs + W) := by
      push_neg
      exact ⟨by linarith, by linarith⟩
    simp only [computeRegionStrength]
    rw [if_neg hcond]
    have hA : (1 : ℚ) ≤ (t - (r.startMs - W)) / W := by
      rw [one_le_div hW]
      linarith
    have hB : (1 : ℚ) ≤ (r.endMs + W - t) / W := by
      rw [one_le_div hW]
      linarith
    rw [h1 _ hA, h1 _ hB]
    exact min_self 1
  · rw [computeRegionStrength_leadIn s W r _ hW hr h1 hmono le_rfl
      (by linarith)]
    rw [sub_self, zero_div]
    exact h0 0 le_rfl
  · rw [computeRegionStrength_leadOut s W r (r.endMs + W) hW hr h1 hmono
      (by linarith) le_rfl]
    rw [sub_self, zero_div]
    exact h0 0 le_rfl
  · intro t ht
    simp only [computeRegionStrength]
    rw [if_pos]
    rcases ht with ht | ht
    · exact Or.inl ht
    · exact Or.inr ht
  · intro t₁ t₂ ha hb hc
    rw [computeRegionStrength_leadIn s W r t₁ hW hr h1 hmono ha
        (le_trans hb hc),
      computeRegionStrength_leadIn s W r t₂ hW hr h1 hmono
        (le_trans ha hb) hc]
    refine hmono _ _ (div_nonneg (by linarith) (le_of_lt hW)) ?_ ?_
    · exact (div_le_div_iff_of_pos_right hW).mpr (by linarith)
    · rw [div_le_one hW]
      linarith
  · intro t₁ t₂ ha hb hc
    rw [computeRegionStrength_leadOut s W r t₁ hW hr h1 hmono ha
        (le_trans hb hc),
      computeRegionStrength_leadOut s W r t₂ hW hr h1 hmono
        (le_trans ha hb) hc]
    refine hmono _ _ (div_nonneg (by linarith) (le_of_lt hW)) ?_ ?_
    · exact (div_le_div_iff_of_pos_right hW).mpr (by linarith)
    · rw [div_le_one hW]
      linarith

/-- C2 witness: the profile theorem instantiated with the concrete
spec-conforming interpolation `clampStep`, window 300 ms and the region
`{1000–3000}`: strength 1 at t = 1000, 0 at t = 700 and at t = 3300. -/
theorem computeRegionStrength_profile_witness :
    computeRegionStrength clampStep 300 ⟨"z1", 1000, 3000, 3, ⟨1/2, 1/2⟩⟩ 1000 = 1 ∧
    computeRegionStrength clampStep 300 ⟨"z1", 1000, 3000, 3, ⟨1/2, 1/2⟩⟩ 700 = 0 ∧
    computeRegionStrength clampStep 300 ⟨"z1", 1000, 3000, 3, ⟨1/2, 1/2⟩⟩ 3300 = 0 := by
  have hprof := computeRegionStrength_profile clampStep 300
    ⟨"z1", 1000, 3000, 3, ⟨1/2, 1/2⟩⟩
    (by norm_num) (by norm_num)
    (fun x hx => max_eq_left (le_trans (min_le_right 1 x) hx))
    (fun x hx => by
      show max 0 (min 1 x) = 1
      rw [min_eq_left hx]
      exact max_eq_right zero_le_one)
    (fun x y hx hxy hy => max_le_max le_rfl (min_le_min le_rfl hxy))
  refine ⟨hprof.1 1000 le_rfl (by norm_num), ?_, ?_⟩
  · have h := hprof.2.1
    norm_num at h
    exact h
  · have h := hprof.2.2.1
    norm_num at h
    exact h

lemma dominantFold_characterization (s : ℚ → ℚ) (W t : ℚ) :
    ∀ (l : List ZoomRegion) (acc : Option ZoomRegion × ℚ),
      acc.2 ≤ (l.foldl (dominantStep s W t) acc).2 ∧
      (∀ r ∈ l,
        computeRegionStrength s W r t ≤ (l.foldl (dominantStep s W t) acc).2) ∧
      (l.foldl (dominantStep s W t) acc = acc ∨
        ∃ l₁ r l₂, l = l₁ ++ r :: l₂ ∧
          l.foldl (dominantStep s W t) acc =
            (some r, computeRegionStrength s W r t) ∧
          acc.2 < computeRegionStrength s W r t ∧
          ∀ r' ∈ l₁,
            computeRegionStrength s W r' t < computeRegionStrength s W r t) := by
  intro l
  induction l with
  | nil =>
    intro acc
    exact ⟨le_refl _, by simp, Or.inl rfl⟩
  | cons u rest ih =>
    intro acc
    by_cases hu : computeRegionStrength s W u t > acc.2
    · have hstep : dominantStep s W t acc u =
          (some u, computeRegionStrength s W u t) := by
        simp only [dominantStep]
        rw [if_pos hu]
      obtain ⟨ha, hb, hc⟩ := ih (some u, computeRegionStrength s W u t)
      refine ⟨?_, ?_, ?_⟩
      · rw [List.foldl_cons, hstep]
        exact le_trans (le_of_lt hu) ha
      · intro r hr
        rw [List.foldl_cons, hstep]
        rcases List.mem_cons.mp hr with rfl | hr
        · exact ha
        · exact hb r hr
      · rw [List.foldl_cons, hstep]
        rcases hc with hc | ⟨l₁, r, l₂, hsplit, hres, hlt, hearlier⟩
        · exact Or.inr ⟨[], u, rest, rfl, hc, hu, by simp⟩
        · have hlt' : computeRegionStrength s W u t <
              computeRegionStrength s W r t := hlt
          refine Or.inr ⟨u :: l₁, r, l₂, by rw [hsplit]; rfl, hres,
            lt_trans hu hlt', ?_⟩
          intro r' hr'
          rcases List.mem_cons.mp hr' with rfl | hr'
          · exact hlt'
          · exact hearlier r' hr'
    · have hstep : dominantStep s W t acc u = acc := by
        simp only [dominantStep]
        rw [if_neg hu]
      obtain ⟨ha, hb, hc⟩ := ih acc
      refine ⟨?_, ?_, ?_⟩
      · rw [List.foldl_cons, hstep]
        exact ha
      · intro r hr
        rw [List.foldl_cons, hstep]
        rcases List.mem_cons.mp hr with rfl | hr
        · exact le_trans (not_lt.mp hu) ha
        · exact hb r hr
      · rw [List.foldl_cons, hstep]
        rcases hc with hc | ⟨l₁, r, l₂, hsplit, hres, hlt, hearlier⟩
        · exact Or.inl hc
        · refine Or.inr ⟨u :: l₁, r, l₂, by rw [hsplit]; rfl, hres, hlt, ?_⟩
          intro r' hr'
          rcases List.mem_cons.mp hr' with rfl | hr'
          · exact lt_of_le_of_lt (not_lt.mp hu) hlt
          · exact hearlier r' hr'

/-- C4 (amended): `findDominantRegion` returns an upper bound of all
strengths; when the resulting strength is positive, the returned region is
the first region in list order attaining it (every earlier region is
strictly weaker — ties are broken in favour of the first); when the
resulting strength is zero (in particular when every covered region has
strength 0 at the timestamp, e.g. at a transition-window boundary), a null
region is returned rather than a zero-strength covered region. -/
theorem findDominantRegion_max (s : ℚ → ℚ) (W : ℚ)
    (regions : List ZoomRegion) (t : ℚ) :
    (∀ r ∈ regions,
      computeRegionStrength s W r t ≤ (findDominantRegion s W regions t).strength) ∧
    0 ≤ (findDominantRegion s W regions t).strength ∧
    ((findDominantRegion s W regions t).strength = 0 →
      (findDominantRegion s W regions t).region = none) ∧
    (0 < (findDominantRegion s W regions t).strength →
      ∃ l₁ r l₂, regions = l₁ ++ r :: l₂ ∧
        (findDominantRegion s W regions t).region = some r ∧
        (findDominantRegion s W regions t).strength =
          computeRegionStrength s W r t ∧
        ∀ r' ∈ l₁,
          computeRegionStrength s W r' t < computeRegionStrength s W r t) := by
  obtain ⟨ha, hb, hc⟩ :=
    dominantFold_characterization s W t regions (none, 0)
  have hstrength : (findDominantRegion s W regions t).strength =
      (regions.foldl (dominantStep s W t) (none, 0)).2 := rfl
  have hregion : (findDominantRegion s W regions t).region =
      (regions.foldl (dominantStep s W t) (none, 0)).1 := rfl
  refine ⟨?_, ?_, ?_, ?_⟩
  · intro r hr
    rw [hstrength]
    exact hb r hr
  · rw [hstrength]
    exact ha
  · intro h0
    rw [hregion]
    rcases hc with hc | ⟨l₁, r, l₂, _, hres, hlt, _⟩
    · rw [hc]
    · exfalso
      rw [hstrength, hres] at h0
      have h0' : computeRegionStrength s W r t = 0 := h0
      have hlt' : (0 : ℚ) < computeRegionStrength s W r t := hlt
      rw [h0'] at hlt'
      exact lt_irrefl 0 hlt'
  · intro hpos
    rcases hc with hc | ⟨l₁, r, l₂, hsplit, hres, hlt, hearlier⟩
    · rw [hstrength, hc] at hpos
      exact absurd hpos (lt_irrefl 0)
    · exact ⟨l₁, r, l₂, hsplit, by rw [hregion, hres],
        by rw [hstrength, hres], hearlier⟩

/-- C4 counterexample: with the spec-conforming interpolation `halfStep`,
window 300 ms and the single region `{1000–3000}`, the timestamp 750 lies
strictly inside the region's lead-in window (700 < 750 < 3300) yet
`findDominantRegion` returns the null region, because the region's strength
at 750 is 0 — so the claim "returns the region with the highest strength
among all regions whose lead-in/lead-out window covers t" fails. -/
theorem findDominantRegion_zero_strength_counterexample :
    findDominantRegion halfStep 300 [⟨"z1", 1000, 3000, 3, ⟨1/2, 1/2⟩⟩] 750 =
      ⟨none, 0, 0⟩ ∧
    (1000 : ℚ) - 300 < 750 ∧ (750 : ℚ) < 3000 + 300 := by
  constructor
  · norm_num [findDominantRegion, dominantStep, computeRegionStrength, halfStep]
  · norm_num

/-- C4 witness: the amended theorem applied to a concrete region list and
timestamp. -/
theorem findDominantRegion_max_witness :
    computeRegionStrength clampStep 300 ⟨"z1", 1000, 3000, 3, ⟨1/2, 1/2⟩⟩ 2000 ≤
      (findDominantRegion clampStep 300
        [⟨"z1", 1000, 3000, 3, ⟨1/2, 1/2⟩⟩] 2000).strength ∧
    0 ≤ (findDominantRegion clampStep 300
        [⟨"z1", 1000, 3000, 3, ⟨1/2, 1/2⟩⟩] 2000).strength :=
  ⟨(findDominantRegion_max clampStep 300 [⟨"z1", 1000, 3000, 3, ⟨1/2, 1/2⟩⟩]
      2000).1 _ (List.mem_singleton_self _),
   (findDominantRegion_max clampStep 300 [⟨"z1", 1000, 3000, 3, ⟨1/2, 1/2⟩⟩]
      2000).2.1⟩

/-- C10: at a timestamp where every region's strength is 0, the fold never
replaces the initial accumulator, so `findDominantRegion` returns the null
region with strength 0 and zoom-in progress 0 — a zero-strength region is
never selected as dominant. -/
theorem findDominantRegion_all_zero (s : ℚ → ℚ) (W : ℚ)
    (regions : List ZoomRegion) (t : ℚ)
    (h : ∀ r ∈ regions, computeRegionStrength s W r t = 0) :
    findDominantRegion s W regions t = ⟨none, 0, 0⟩ := by
  obtain ⟨-, -, hc⟩ := dominantFold_characterization s W t regions (none, 0)
  rcases hc with hc | ⟨l₁, r, l₂, hsplit, hres, hlt, -⟩
  · simp [findDominantRegion, hc]
  · exfalso
    have hlt' : (0 : ℚ) < computeRegionStrength s W r t := hlt
    have hzero := h r (by rw [hsplit]; simp)
    rw [hzero] at hlt'
    exact lt_irrefl 0 hlt'

/-- C10 witness: the theorem applied to the region `{1000–3000}` with
window 300 ms at timestamp 100, which is outside every transition window. -/
theorem findDominantRegion_all_zero_witness :
    findDominantRegion clampStep 300 [⟨"z1", 1000, 3000, 3, ⟨1/2, 1/2⟩⟩] 100 =
      ⟨none, 0, 0⟩ :=
  findDominantRegion_all_zero clampStep 300 _ 100 (by
    intro r hr
    rcases List.mem_singleton.mp hr with rfl
    norm_num [computeRegionStrength])

/-! ### Claim C5 — encode queue backpressure -/

set_option maxRecDepth 100000 in
/-- C5: along any sequence of gate transitions (accepted frames increment
the counter only after observing it below the ceiling, output callbacks
decrement it, dropped frames leave it unchanged) the in-flight encode
counter never exceeds `MAX_ENCODE_QUEUE = 200`; and with 250 frames
submitted back-to-back against a stalled encoder, exactly 200 are in flight
and 50 are dropped and released. -/
theorem encodeQueue_bounded (s₀ s : EncodeGateState)
    (h0 : s₀.encodeQueue ≤ MAX_ENCODE_QUEUE)
    (hsteps : Relation.ReflTransGen EncodeGateStep s₀ s) :
    s.encodeQueue ≤ MAX_ENCODE_QUEUE ∧
    submitFramesStalled 250 ⟨0, 0⟩ = ⟨200, 50⟩ := by
  constructor
  · induction hsteps with
    | refl => exact h0
    | tail hab hstep ih =>
      cases hstep with
      | accept h => exact h
      | drop => exact ih
      | output => exact le_trans (Nat.sub_le _ _) ih
  · decide

/-- C5 witness: the theorem applied to the empty reflexive transition
sequence from the initial state. -/
theorem encodeQueue_bounded_witness :
    (⟨0, 0⟩ : EncodeGateState).encodeQueue ≤ MAX_ENCODE_QUEUE ∧
    submitFramesStalled 250 ⟨0, 0⟩ = ⟨200, 50⟩ :=
  encodeQueue_bounded ⟨0, 0⟩ ⟨0, 0⟩ (by decide) Relation.ReflTransGen.refl

/-! ### Claim C6 — frame-rate conversion in the extractor -/

/-- C6 (amended): each decoded-frame event captures at most one output
frame, and captures exactly when `timeSinceLastCapture` reaches **0.7×** the
target inter-frame interval `1000 / frameRate` (the source compares against
`frameIntervalMs * 0.7`, not the full interval), provided the segment is not
yet finished, the segment end has not been reached and frames remain in the
budget. -/
theorem processFrameEvent_capture (frameRate segmentEndTimeMs : ℚ)
    (segmentFrames : ℕ) (st : ExtractState) (currentTimeMs : ℚ) :
    (processFrameEvent segmentEndTimeMs (frameIntervalMs frameRate)
        segmentFrames st currentTimeMs).2 ≤ 1 ∧
    ((processFrameEvent segmentEndTimeMs (frameIntervalMs frameRate)
        segmentFrames st currentTimeMs).2 = 1 →
      frameIntervalMs frameRate * (7 / 10) ≤
        currentTimeMs - st.lastCapturedTimeMs) ∧
    (st.isFinished = false →
      currentTimeMs < segmentEndTimeMs - 50 →
      st.framesProcessed < segmentFrames →
      ((processFrameEvent segmentEndTimeMs (frameIntervalMs frameRate)
          segmentFrames st currentTimeMs).2 = 1 ↔
        frameIntervalMs frameRate * (7 / 10) ≤
          currentTimeMs - st.lastCapturedTimeMs)) := by
  simp only [processFrameEvent]
  by_cases hfin : st.isFinished
  · simp [hfin]
  · simp only [hfin, if_false, Bool.false_eq_true]
    by_cases hend : segmentEndTimeMs - 50 ≤ currentTimeMs ∨
        segmentFrames ≤ st.framesProcessed
    · rw [if_pos hend]
      refine ⟨by norm_num, by norm_num, ?_⟩
      intro _ h1 h2
      exact absurd hend (by push_neg; exact ⟨h1, h2⟩)
    · rw [if_neg hend]
      by_cases hcap : frameIntervalMs frameRate * (7 / 10) ≤
          currentTimeMs - st.lastCapturedTimeMs
      · rw [if_pos hcap]
        exact ⟨le_refl _, fun _ => hcap, fun _ _ _ => ⟨fun _ => hcap, fun _ => rfl⟩⟩
      · rw [if_neg hcap]
        refine ⟨by norm_num, by norm_num, ?_⟩
        intro _ _ _
        exact ⟨fun h => absurd h (by norm_num), fun h => absurd h hcap⟩

/-- C6 counterexample: at 100 fps the target interval is 10 ms, yet a frame
is captured when only 8 ms have elapsed since the last capture (8 ≥ 0.7·10),
refuting the claim that a capture happens only when the full target
inter-frame interval has elapsed. -/
theorem processFrameEvent_below_interval_capture :
    (processFrameEvent 10050 (frameIntervalMs 100) 100 ⟨0, 0, false⟩ 8).2 = 1 ∧
    ¬ (frameIntervalMs 100 ≤ 8 - (0 : ℚ)) := by
  constructor
  · norm_num [processFrameEvent, frameIntervalMs]
  · norm_num [frameIntervalMs]

/-- C6 witness: the amended theorem applied to a concrete event (100 fps,
segment ending at 10050 ms, current time 8 ms, last capture at 0 ms). -/
theorem processFrameEvent_capture_witness :
    (processFrameEvent 10050 (frameIntervalMs 100) 100 ⟨0, 0, false⟩ 8).2 ≤ 1 ∧
    ((processFrameEvent 10050 (frameIntervalMs 100) 100 ⟨0, 0, false⟩ 8).2 = 1 ↔
      frameIntervalMs 100 * (7 / 10) ≤
        8 - (⟨0, 0, false⟩ : ExtractState).lastCapturedTimeMs) :=
  ⟨(processFrameEvent_capture 100 10050 100 ⟨0, 0, false⟩ 8).1,
   (processFrameEvent_capture 100 10050 100 ⟨0, 0, false⟩ 8).2.2 rfl
     (by norm_num) (by norm_num)⟩

/-! ### Claim C7 — cancellation result -/

/-- C7 (amended): when cancellation has been requested, `export()` returns
`{success: false, error: 'Export cancelled'}` — with **no** `cancelled`
flag, so the result is distinguishable from other failures only by its
error string — and performs none of the finalization effects (no encoder
flush, no await of pending mux operations, no container finalization),
whereas a non-cancelled run performs all three. -/
theorem exportFinalize_cancelled :
    exportFinalize true true =
      ({ success := false, error := some "Export cancelled",
         cancelled := none }, []) ∧
    exportFinalize true false =
      ({ success := false, error := some "Export cancelled",
         cancelled := none }, []) ∧
    exportFinalize false true =
      ({ success := true, error := none, cancelled := none },
        [FinalizeAction.flushEncoder, FinalizeAction.awaitMuxingPromises,
          FinalizeAction.finalizeContainer]) :=
  ⟨rfl, rfl, rfl⟩

/-- C7 counterexample: the result returned on cancellation does not carry
the `cancelled: true` flag required by the claimed discriminated shape. -/
theorem exportFinalize_no_cancelled_flag :
    (exportFinalize true true).1.cancelled = none ∧
    (exportFinalize true true).1.cancelled ≠ some true ∧
    (exportFinalize true true).1.error = some "Export cancelled" :=
  ⟨rfl, by simp [exportFinalize], rfl⟩

/-! ### Claim C8 — encoder configuration fallback -/

/-- C8: `initializeEncoder` probes the hardware-accelerated configuration
first and commits to it when supported; otherwise it retries the identical
configuration with software acceleration; it throws (failing the export)
exactly when neither the hardware nor the software configuration is
supported. -/
theorem initializeEncoderConfigure_fallback (base : VideoEncoderConfig)
    (isConfigSupported : VideoEncoderConfig → Bool) :
    (isConfigSupported { base with hardwareAcceleration := "prefer-hardware" } = true →
      initializeEncoderConfigure base isConfigSupported =
        Except.ok { base with hardwareAcceleration := "prefer-hardware" }) ∧
    (isConfigSupported { base with hardwareAcceleration := "prefer-hardware" } = false →
      isConfigSupported { base with hardwareAcceleration := "prefer-software" } = true →
      initializeEncoderConfigure base isConfigSupported =
        Except.ok { base with hardwareAcceleration := "prefer-software" }) ∧
    ((∃ e, initializeEncoderConfigure base isConfigSupported = Except.error e) ↔
      isConfigSupported { base with hardwareAcceleration := "prefer-hardware" } = false ∧
      isConfigSupported { base with hardwareAcceleration := "prefer-software" } = false) := by
  refine ⟨?_, ?_, ?_⟩
  · intro h
    simp [initializeEncoderConfigure, h]
  · intro h1 h2
    simp [initializeEncoderConfigure, h1, h2]
  · constructor
    · rintro ⟨e, he⟩
      by_cases h1 : isConfigSupported { base with hardwareAcceleration := "prefer-hardware" }
      · simp [initializeEncoderConfigure, h1] at he
      · by_cases h2 : isConfigSupported { base with hardwareAcceleration := "prefer-software" }
        · simp [initializeEncoderConfigure, h1, h2] at he
        · exact ⟨by simpa using h1, by simpa using h2⟩
    · rintro ⟨h1, h2⟩
      exact ⟨"Video encoding not supported", by simp [initializeEncoderConfigure, h1, h2]⟩

/-- A concrete export configuration used to instantiate the encoder
initialization theorem. -/
def testBaseConfig : VideoEncoderConfig :=
  ⟨"avc1.640033", 1920, 1080, 8000000, 30, "realtime", "variable",
    "prefer-hardware"⟩

/-- C8 witness: the theorem applied to a concrete configuration under three
concrete capability predicates — hardware supported, only software
supported, and neither supported. -/
theorem initializeEncoderConfigure_fallback_witness :
    initializeEncoderConfigure testBaseConfig (fun _ => true) =
      Except.ok { testBaseConfig with hardwareAcceleration := "prefer-hardware" } ∧
    initializeEncoderConfigure testBaseConfig
        (fun c => c.hardwareAcceleration == "prefer-software") =
      Except.ok { testBaseConfig with hardwareAcceleration := "prefer-software" } ∧
    initializeEncoderConfigure testBaseConfig (fun _ => false) =
      Except.error "Video encoding not supported" :=
  ⟨(initializeEncoderConfigure_fallback testBaseConfig (fun _ => true)).1 rfl,
   (initializeEncoderConfigure_fallback testBaseConfig
      (fun c => c.hardwareAcceleration == "prefer-software")).2.1
      (by decide) (by decide),
   rfl⟩

/-! ### Claim C9 — first-chunk decoder configuration -/

lemma encoderOutputStep_later (d : ℕ) :
    ∀ (ms : List EncodedChunkMeta) (st : EncoderOutputState),
      st.chunkCount ≠ 0 → st.videoDescription = some d →
      (ms.foldl encoderOutputStep st).videoDescription = some d ∧
      (ms.foldl encoderOutputStep st).written =
        st.written ++ ms.map WrittenMeta.passthrough := by
  intro ms
  induction ms with
  | nil =>
    intro st _ hvd
    exact ⟨hvd, by simp⟩
  | cons m rest ih =>
    intro st hcount hvd
    have hstep_vd : (encoderOutputStep st m).videoDescription = some d := by
      simp only [encoderOutputStep]
      rw [hvd]
      cases m.description <;> rfl
    have hstep_count : (encoderOutputStep st m).chunkCount ≠ 0 := by
      simp [encoderOutputStep]
    have hstep_written : (encoderOutputStep st m).written =
        st.written ++ [WrittenMeta.passthrough m] := by
      simp only [encoderOutputStep]
      rw [if_neg hcount]
    rw [List.foldl_cons]
    obtain ⟨h1, h2⟩ := ih (encoderOutputStep st m) hstep_count hstep_vd
    refine ⟨h1, ?_⟩
    rw [h2, hstep_written, List.map_cons, List.append_assoc]
    rfl

/-- C9: when the first encoded chunk's metadata carries the codec
description, the exporter captures it exactly once (the captured description
is still that of the first chunk after the whole stream is processed, no
matter what later chunks carry), hands it to the container writer together
with the first chunk — i.e. as the first written metadata, before any other
chunk — and passes every subsequent chunk's metadata through unchanged,
without re-supplying the captured configuration. -/
theorem processChunks_first_chunk_config (m₀ : EncodedChunkMeta)
    (rest : List EncodedChunkMeta) (d : ℕ)
    (hd : m₀.description = some d) :
    (processChunks (m₀ :: rest)).videoDescription = some d ∧
    (processChunks (m₀ :: rest)).written =
      WrittenMeta.constructed d (m₀.colorSpace.getD defaultColorSpace) ::
        rest.map WrittenMeta.passthrough := by
  have hstep : encoderOutputStep ⟨none, none, 0, []⟩ m₀ =
      ⟨some d, m₀.colorSpace, 1,
        [WrittenMeta.constructed d (m₀.colorSpace.getD defaultColorSpace)]⟩ := by
    simp only [encoderOutputStep]
    rw [hd]
    cases m₀.colorSpace <;> rfl
  rw [processChunks, List.foldl_cons, hstep]
  obtain ⟨h1, h2⟩ := encoderOutputStep_later d rest
    ⟨some d, m₀.colorSpace, 1,
      [WrittenMeta.constructed d (m₀.colorSpace.getD defaultColorSpace)]⟩
    (by simp) rfl
  exact ⟨h1, by rw [h2]; rfl⟩

/-- C9 witness: the theorem applied to a stream whose first chunk carries
description 7 and color space 3 followed by a descriptionless delta chunk. -/
theorem processChunks_first_chunk_config_witness :
    (processChunks [⟨some 7, some 3⟩, ⟨none, none⟩]).videoDescription = some 7 ∧
    (processChunks [⟨some 7, some 3⟩, ⟨none, none⟩]).written =
      [WrittenMeta.constructed 7 3, WrittenMeta.passthrough ⟨none, none⟩] :=
  processChunks_first_chunk_config ⟨some 7, some 3⟩ [⟨none, none⟩] 7 rfl
